import Mathlib

/-!
A shallow embedding of the `promptr` command-tree engine
(`src/promptr/__init__.py`): the node hierarchy (`Base`/`Command`/`Group`/
`State` and `Argument`), the prefix-matching dispatch (`Group.call_child`,
`Base.call`), the state stack with scoped context (`Prompt`), and the
completion walk (`Base.child_completions`).  Python's mutable state (the
state stack, per-frame context dictionaries, breadcrumb list) is threaded
explicitly as a `PState` value; exceptions become an explicit error sum,
paired with the state reached at the moment of the raise, because Python
exceptions do not roll back prior mutation.

Conventions:
* the head of `PState.stack` is the TOP of the Python list `_state_stack`
  (Python appends/pops at the end and reads `[-1]`);
* the head of `PState.crumbs` is the most recently appended entry of
  `_prompt_states`;
* Python dictionaries are modelled as association lists with in-place
  overwrite (`pyDictInsert`) so that key order and lookup agree with dict
  semantics;
* Python builtins used by the source are modelled at the character-list
  level (`pyStartsWith` for `str.startswith`, `pySplitSpace` for
  `str.split(" ")`, `pyFormat` for `str.format(**kwargs)`).
-/

namespace Promptr

/-- Python `str.startswith`: `pre` is a prefix of `s`. -/
def pyStartsWith (s pre : String) : Bool :=
  pre.data.isPrefixOf s.data

/-- Python `str.split(" ")` helper over characters: `acc` holds the
current word reversed. -/
def pySplitAux : List Char → List Char → List String
  | [], acc => [String.mk acc.reverse]
  | c :: cs, acc =>
    if c = ' ' then String.mk acc.reverse :: pySplitAux cs []
    else pySplitAux cs (c :: acc)

/-- Python `str.split(" ")`: split at every single space character. -/
def pySplitSpace (s : String) : List String :=
  pySplitAux s.data []

/-- An `Argument` (src/promptr/__init__.py:124-162): a named parameter
with completion strings.  The lazily-callable completion source is
modelled by its produced list (the `completions` property normalises
both forms to a list). -/
structure Param where
  name : String
  completions : List String
deriving DecidableEq, Repr

/-- Which class a node was built with: `Command`, `Group`, or `State`
(`State` subclasses `Group`, which subclasses `Base`). -/
inductive Kind where
  | command
  | group
  | state
deriving DecidableEq, Repr

/-- A node of the command tree, carrying the `Base.__init__` fields used
by dispatch and completion (src/promptr/__init__.py:188-206, 438-445).
`promptTemplate` is `State._prompt`; `exitCmd` marks the synthetic
`exit` commands whose callback (`State._exit_state` /
`Prompt._exit_state`) raises `ExitState` — other user callbacks are
external code outside the engine (spec treats callback failures as not
the core's concern) and are modelled as having no engine-visible
effect. -/
inductive Node where
  | mk (name : String) (kind : Kind) (params : List Param)
      (optionalPrefixes : List String) (passName : Bool)
      (passContext : List String) (promptTemplate : Option String)
      (exitCmd : Bool) (children : List Node)

def Node.name : Node → String
  | .mk nm _ _ _ _ _ _ _ _ => nm

def Node.kind : Node → Kind
  | .mk _ k _ _ _ _ _ _ _ => k

def Node.params : Node → List Param
  | .mk _ _ ps _ _ _ _ _ _ => ps

def Node.optionalPrefixes : Node → List String
  | .mk _ _ _ ops _ _ _ _ _ => ops

def Node.passName : Node → Bool
  | .mk _ _ _ _ pn _ _ _ _ => pn

def Node.passContext : Node → List String
  | .mk _ _ _ _ _ pc _ _ _ => pc

def Node.promptTemplate : Node → Option String
  | .mk _ _ _ _ _ _ pt _ _ => pt

def Node.exitCmd : Node → Bool
  | .mk _ _ _ _ _ _ _ e _ => e

def Node.children : Node → List Node
  | .mk _ _ _ _ _ _ _ _ cs => cs

/-- The `Base.__init__` loop building `_names`
(src/promptr/__init__.py:200-202): start from `[name]` and append
`"{prefix} {name}"` for each optional prefix, in order. -/
def buildNames (nm : String) (prefixes : List String) : List String :=
  prefixes.foldl (fun acc p => acc ++ [p ++ " " ++ nm]) [nm]

/-- The `names` property: `Base.names` returns the `_names` list built at
construction, but `State.names` (src/promptr/__init__.py:459-461)
overrides it to return just `[self._name]`. -/
def Node.names (n : Node) : List String :=
  match n.kind with
  | .state => [n.name]
  | _ => buildNames n.name n.optionalPrefixes

/-- `Base.completions` (src/promptr/__init__.py:285-296): the names that
start with `cmd`. -/
def Node.completions (n : Node) (cmd : String) : List String :=
  n.names.filter (fun nm => pyStartsWith nm cmd)

/-- `Base.get_completions` (src/promptr/__init__.py:298-306): matching
names paired with exactness. -/
def Node.getCompletions (n : Node) (cmd : String) : List (String × Bool) :=
  (n.completions cmd).map (fun nm => (nm, nm == cmd))

/-- `Base.hasParams` (src/promptr/__init__.py:281-283). -/
def Node.hasParams (n : Node) : Bool :=
  n.params.length > 0

/-- A Python dictionary mapping strings to Python values that are either
a string or `None` (`Option.none`). -/
abbrev Bindings := List (String × Option String)

/-- Python dict assignment `m[k] = v`: overwrite in place if the key is
present, otherwise append at the end. -/
def pyDictInsert (m : Bindings) (k : String) (v : Option String) : Bindings :=
  if m.any (fun p => p.1 == k) then
    m.map (fun p => if p.1 == k then (k, v) else p)
  else m ++ [(k, v)]

/-- Python `m.get(k, None)`: `none` both when the key is absent and when
it is bound to `None`. -/
def pyDictGet (m : Bindings) (k : String) : Option String :=
  match m.find? (fun p => p.1 == k) with
  | some p => p.2
  | none => none

/-- Python `str(v)` as applied by `str.format` to an interpolated value. -/
def pyStr : Option String → String
  | some s => s
  | none => "None"

/-- Scan a placeholder body up to the closing `\x7d`; returns the key and
the remaining characters. -/
def pyFormatKey : List Char → Option (List Char × List Char)
  | [] => none
  | c :: cs =>
    if c = '\x7d' then some ([], cs)
    else
      match pyFormatKey cs with
      | some (k, r) => some (c :: k, r)
      | none => none

/-- Character-level model of Python `str.format(**kwargs)` for the plain
named placeholders used by the repository's prompt templates (no escaped
braces, no format specs).  A placeholder key absent from the bindings is
rendered as the string `"None"` (the repository only formats templates
whose keys were bound by the entering call).  The `fuel` argument only
drives structural termination: each step strictly shortens the
character list, so starting it at the list length it never runs out. -/
def pyFormatChars (bs : Bindings) : Nat → List Char → List Char
  | _, [] => []
  | 0, l => l
  | fuel + 1, c :: cs =>
    if c = '\x7b' then
      match pyFormatKey cs with
      | some kr =>
        (pyStr (pyDictGet bs (String.mk kr.1))).data ++ pyFormatChars bs fuel kr.2
      | none => c :: pyFormatChars bs fuel cs
    else c :: pyFormatChars bs fuel cs

/-- Python `template.format(**bindings)`. -/
def pyFormat (tpl : String) (bs : Bindings) : String :=
  String.mk (pyFormatChars bs tpl.data.length tpl.data)

/-- `State.get_prompt` (src/promptr/__init__.py:463-466), applied to a
node together with the `_last_call_kwargs` recorded when the state was
entered: format the prompt template, or `none` when no template is set. -/
def nodeGetPrompt (n : Node) (kw : Bindings) : Option String :=
  match n.promptTemplate with
  | some tpl => some (pyFormat tpl kw)
  | none => none

/-- One entry of `Prompt._state_stack` (the `StackItem` namedtuple,
src/promptr/__init__.py:469) together with the `_last_call_kwargs` the
pushed node held when it was pushed.  Python keeps `_last_call_kwargs`
as a mutable per-node attribute; the stack frame snapshots it because
the only places the engine reads it for a stacked node are `get_prompt`
at push time (the rendered value) and at pop time (only whether it is
`None`, which depends solely on the template being set). -/
structure Frame where
  state : Node
  pushKwargs : Bindings
  context : Bindings

/-- The mutable run state of a `Prompt`: the state stack (head = top,
i.e. the end of the Python list) and the `_prompt_states` breadcrumb
list (head = most recently appended). -/
structure PState where
  stack : List Frame
  crumbs : List String

/-- `Prompt.set_context` (src/promptr/__init__.py:603-604): write into
the bindings of the top frame.  Python raises `IndexError` on an empty
stack; that situation is unreachable because the root frame is never
popped, and is modelled as a no-op. -/
def PState.setContext (ps : PState) (k : String) (v : Option String) : PState :=
  match ps.stack with
  | [] => ps
  | top :: rest =>
    { ps with stack := { top with context := pyDictInsert top.context k v } :: rest }

/-- The scan of `Prompt.get_context` over `reversed(self._state_stack)`:
the first frame (innermost first) holding a non-`None` value wins. -/
def lookupFrames (frames : List Frame) (k : String) : Option String :=
  match frames with
  | [] => none
  | f :: rest =>
    match pyDictGet f.context k with
    | some v => some v
    | none => lookupFrames rest k

/-- `Prompt.get_context` (src/promptr/__init__.py:606-611). -/
def PState.getContext (ps : PState) (k : String) (default : Option String) :
    Option String :=
  match lookupFrames ps.stack k with
  | some v => some v
  | none => default

/-- `Prompt._push_state` (src/promptr/__init__.py:593-596): append a
fresh frame, and append the rendered prompt to the breadcrumbs when the
state has one. -/
def PState.pushState (ps : PState) (st : Node) (kw : Bindings) : PState :=
  let ps' : PState := { ps with stack := ⟨st, kw, []⟩ :: ps.stack }
  match nodeGetPrompt st kw with
  | some crumb => { ps' with crumbs := crumb :: ps'.crumbs }
  | none => ps'

/-- `Prompt._pop_state` (src/promptr/__init__.py:598-601): drop the last
breadcrumb when the outgoing state renders a prompt, then pop and return
the top frame's state.  Python raises `IndexError` on an empty stack;
unreachable, modelled as a no-op returning `none`. -/
def PState.popState (ps : PState) : PState × Option Node :=
  match ps.stack with
  | [] => (ps, none)
  | top :: rest =>
    match nodeGetPrompt top.state top.pushKwargs with
    | some _ => ({ stack := rest, crumbs := ps.crumbs.tail }, some top.state)
    | none => ({ ps with stack := rest }, some top.state)

/-- The promptr error taxonomy (src/promptr/__init__.py:57-121), plus:
`indexError` for the Python `IndexError` that `Base.call` would raise on
`get_completions(cmd)[0]` with no match, and `exitState` for the
`ExitState` control signal raised by the synthetic exit commands. -/
inductive PErr where
  | ambiguous (cmd : String)
  | notFound (cmd : String)
  | notEnoughArgs (cmd : String)
  | indexError
  | exitState
deriving DecidableEq, Repr

/-- The `exact_matches` list built by `Group.call_child`
(src/promptr/__init__.py:408-415): one entry per exact `(name, True)`
pair of each child, in scan order. -/
def exactMatches (children : List Node) (cmd : String) : List Node :=
  children.flatMap (fun child =>
    ((child.getCompletions cmd).filter (fun p => p.2)).map (fun _ => child))

/-- The `possible` list built by `Group.call_child`
(src/promptr/__init__.py:408-415): one entry per non-exact matching pair
of each child, in scan order. -/
def possibleMatches (children : List Node) (cmd : String) : List Node :=
  children.flatMap (fun child =>
    ((child.getCompletions cmd).filter (fun p => !p.2)).map (fun _ => child))

/-- The selection chain of `Group.call_child`
(src/promptr/__init__.py:417-426): more than one exact entry is
ambiguous, exactly one selects; otherwise more than one possible entry
is ambiguous, exactly one selects; otherwise the command is not found. -/
def resolveChild (children : List Node) (cmd : String) : Except PErr Node :=
  match exactMatches children cmd with
  | [c] => .ok c
  | [] =>
    match possibleMatches children cmd with
    | [c] => .ok c
    | [] => .error (.notFound cmd)
    | _ => .error (.ambiguous cmd)
  | _ => .error (.ambiguous cmd)

/-- The parameter loop of `Base.call` (src/promptr/__init__.py:260-265):
pop one token per declared parameter, record it in the call kwargs, and
write the same binding into the top frame of the context store.  Runs
only after the length check, so the token list cannot run dry. -/
def bindParams : List Param → List String → PState → Bindings →
    PState × Bindings × List String
  | [], lineParts, ps, kw => (ps, kw, lineParts)
  | _ :: _, [], ps, kw => (ps, kw, [])
  | p :: rest, v :: vs, ps, kw =>
    bindParams rest vs (ps.setContext p.name (some v))
      (pyDictInsert kw p.name (some v))

/-- The `called_name` kwarg added by `Base.call` when `pass_name` is set
(src/promptr/__init__.py:247-248): the first completion pair's name.
`Base.call` only reaches this with a non-empty completion list (the
empty case raises `IndexError`, handled in `Node.call`). -/
def callKw0 (n : Node) (cmd : String) : Bindings :=
  if n.passName then
    match (n.getCompletions cmd).head? with
    | some p => [("called_name", some p.1)]
    | none => []
  else []

/-- The tail of `Base.call` after the parameter loop
(src/promptr/__init__.py:267-274): add the `pass_context` lookups to the
kwargs, invoke the callback (the synthetic exit commands raise
`ExitState`; other callbacks are external code with no engine-visible
effect), and record the kwargs as `_last_call_kwargs`. -/
def callFinish (n : Node) (res : PState × Bindings × List String) :
    PState × Except PErr (List String × Bindings) :=
  if n.exitCmd then (res.1, .error .exitState)
  else
    (res.1, .ok (res.2.2, n.passContext.foldl
      (fun kw nm => pyDictInsert kw nm (res.1.getContext nm none)) res.2.1))

/-- `Base.call` (src/promptr/__init__.py:228-274).  Returns the state
after the call's context writes, and on success the remaining tokens
plus the kwargs recorded as `_last_call_kwargs`. -/
def Node.call (n : Node) (cmd : String) (lineParts : List String)
    (ps : PState) : PState × Except PErr (List String × Bindings) :=
  if n.params.length > lineParts.length then
    (ps, .error (.notEnoughArgs cmd))
  else if n.passName && (n.getCompletions cmd).isEmpty then
    (ps, .error .indexError)
  else
    callFinish n (bindParams n.params lineParts ps (callKw0 n cmd))

/-- Fuelled body of `Group.call_child`; see `Node.callChild`.  The fuel
only drives structural termination: every recursive call strictly
shortens the token list (the first token is popped before the child's
`call` consumes its parameters), so starting the fuel at the token-list
length it never runs out — made precise by `callChildF_fuel`, and the
fuel-0 non-empty case is unreachable from `Node.callChild`. -/
def callChildF : Nat → Node → List String → PState →
    PState × Except PErr (Option (Node × Bindings))
  | _, _, [], ps => (ps, .ok none)
  | 0, _, _ :: _, ps => (ps, .ok none)
  | fuel + 1, n, cmd :: rest, ps =>
    if cmd = "" then (ps, .ok none)
    else
      match resolveChild n.children cmd with
      | .error e => (ps, .error e)
      | .ok child =>
        match child.call cmd rest ps with
        | (ps1, .error e) => (ps1, .error e)
        | (ps1, .ok (rest1, kw)) =>
          if child.kind = .state then (ps1, .ok (some (child, kw)))
          else if child.kind = .group then
            match callChildF fuel child rest1 ps1 with
            | (ps2, .error e) => (ps2, .error e)
            | (ps2, .ok _) => (ps2, .ok none)
          else (ps1, .ok none)

/-- `Group.call_child` (src/promptr/__init__.py:401-435): resolve the
first token to a child, call it, and return the child if it is a
`State`; otherwise, for a `Group`, recurse on the remaining tokens and
DISCARD the recursive result, returning `none`.  On success the
returned pair carries the selected state together with the
`_last_call_kwargs` its call recorded (read by `_push_state`).
`callChild_eq` states the characteristic recursion equation. -/
def Node.callChild (n : Node) (lineParts : List String) (ps : PState) :
    PState × Except PErr (Option (Node × Bindings)) :=
  callChildF lineParts.length n lineParts ps

/-- The outcome of one iteration of `Prompt._run`
(src/promptr/__init__.py:617-632) for a single input line. -/
inductive LineOutcome where
  | ok
  | error (e : PErr)
  | sessionExit
deriving DecidableEq, Repr

/-- The body of `Prompt._run` for one line, after tokenisation: skip
empty lines, dispatch from the current (top) state, push a returned
state, and catch `ExitState` — popping one frame when more than the
root frame is on the stack, otherwise re-raising it to end the session.
Any other `PromptrError` propagates to the caller.  Python's
`self.current_state` on an empty stack would raise `IndexError`;
unreachable, modelled as a no-op. -/
def processParts (ps : PState) (lineParts : List String) :
    PState × LineOutcome :=
  if lineParts.isEmpty then (ps, .ok)
  else
    match ps.stack with
    | [] => (ps, .ok)
    | top :: _ =>
      match top.state.callChild lineParts ps with
      | (ps1, .ok none) => (ps1, .ok)
      | (ps1, .ok (some (st, kw))) => (ps1.pushState st kw, .ok)
      | (ps1, .error .exitState) =>
        if ps1.stack.length > 1 then ((ps1.popState).1, .ok)
        else (ps1, .sessionExit)
      | (ps1, .error e) => (ps1, .error e)

/-- One full iteration of `Prompt._run`: split the raw line on spaces
and drop empty words, then process. -/
def processLine (ps : PState) (line : String) : PState × LineOutcome :=
  processParts ps ((pySplitSpace line).filter (fun w => w ≠ ""))

/-- The advance condition of the completion walk's inner loop
(`Base.child_completions`, src/promptr/__init__.py:320-323):
`exact_found or len(completions) == 1` for this child and word. -/
def stepMatches (child : Node) (word : String) : Bool :=
  (child.getCompletions word).any (fun p => p.2) ||
    (child.getCompletions word).length == 1

/-- The per-child body of the completion walk's inner loop
(`Base.child_completions`, src/promptr/__init__.py:319-326): when the
child has an exact completion for the word, or exactly one completion,
move the walk position to that child; a child with declared parameters
clears the `child_complete` flag (which is never set back). -/
def stepChild (word : String) (acc : Node × Bool) (child : Node) :
    Node × Bool :=
  if stepMatches child word then
    (child, if child.hasParams then false else acc.2)
  else acc

/-- One word of the completion walk (`Base.child_completions`,
src/promptr/__init__.py:316-326): empty words are skipped; otherwise
the children of the position held at the START of the word are scanned
in order (Python's `for child in state._children` freezes the iterated
list even though `state` is reassigned inside the loop). -/
def walkWord (acc : Node × Bool) (word : String) : Node × Bool :=
  if word = "" then acc
  else acc.1.children.foldl (stepChild word) acc

/-- The tree-advancing phase of `Base.child_completions`
(src/promptr/__init__.py:312-326): runs only when the buffer holds more
than one word, and then folds `walkWord` over ALL the words. -/
def Node.childWalk (n : Node) (lineParts : List String) : Node × Bool :=
  if lineParts.length > 1 then lineParts.foldl walkWord (n, true)
  else (n, true)

/-- `Base.child_completions` (src/promptr/__init__.py:308-338): after
the walk, yield either the landed node's parameter completions (when a
walked-through child had parameters) or the landed node's child names,
filtered by the final word. -/
def Node.childCompletions (n : Node) (lineParts : List String)
    (lastWord : String) : List String :=
  let walk := n.childWalk lineParts
  let st := walk.1
  if walk.2 = false then
    st.params.flatMap (fun p =>
      p.completions.filter (fun c => pyStartsWith c lastWord))
  else
    st.children.flatMap (fun c =>
      (c.completions lastWord).filter (fun nm => pyStartsWith nm lastWord))

/-- The parts of the run state that parameter binding can never touch:
the breadcrumb list, the whole stack apart from the top frame, and the
top frame's state node and push-time kwargs (only the top frame's
context dictionary is ever written during dispatch). -/
def shapeEq (a b : PState) : Prop :=
  a.crumbs = b.crumbs ∧
  a.stack.map Frame.state = b.stack.map Frame.state ∧
  a.stack.map Frame.pushKwargs = b.stack.map Frame.pushKwargs ∧
  a.stack.tail = b.stack.tail

/-! ### Declarative match counts (spec side, for comparison with the
`exact_matches` / `possible` lists the dispatcher builds) -/

/-- How many of a node's names equal `cmd` exactly. -/
def numExactNames (c : Node) (cmd : String) : Nat :=
  (c.names.filter (fun nm => nm == cmd)).length

/-- How many of a node's names start with `cmd` without equalling it. -/
def numPrefixNames (c : Node) (cmd : String) : Nat :=
  (c.names.filter (fun nm => pyStartsWith nm cmd && !(nm == cmd))).length

/-- Total number of exact `(name, cmd)` pairs over all children. -/
def exactPairCount (children : List Node) (cmd : String) : Nat :=
  (children.map (fun c => numExactNames c cmd)).sum

/-- Total number of strict-prefix `(name, cmd)` pairs over all children. -/
def prefixPairCount (children : List Node) (cmd : String) : Nat :=
  (children.map (fun c => numPrefixNames c cmd)).sum

/-! ### Concrete trees used by the witnesses and counterexamples -/

def c1s : Node := .mk "s" .state [] [] false [] none false []

def c1g : Node := .mk "g" .group [] [] false [] none false [c1s]

def c1root : Node := .mk "_root" .group [] [] false [] none false [c1g]

def c1rootDirect : Node := .mk "_root" .group [] [] false [] none false [c1s]

def c1ps : PState := ⟨[⟨c1root, [], []⟩], []⟩

def c2nose : Node := .mk "nose" .command [] ["no"] false [] none false []

def c3c : Node := .mk "c" .command [] [] false [] none false []

def c3g : Node := .mk "g" .group [⟨"arg", []⟩] [] false [] none false [c3c]

def c3root : Node := .mk "_root" .group [] [] false [] none false [c3g]

def c3ps : PState := ⟨[⟨c3root, [], []⟩], []⟩

def c4state : Node := .mk "state" .state [] [] false [] none false []

def c4state1 : Node := .mk "state1" .state [] [] false [] none false []

def c4root : Node := .mk "_root" .group [] [] false [] none false [c4state, c4state1]

def c5shut : Node := .mk "shutdown" .command [] ["no"] false [] none false []

def c5stateShut : Node := .mk "shutdown" .state [] ["no"] false [] none false []

def c6exit : Node := .mk "exit" .command [] [] false [] none true []

def c6st : Node := .mk "s1" .state [] [] false [] (some "s1") false [c6exit]

def c6root : Node := .mk "_root" .group [] [] false [] none false [c6st, c6exit]

def c6ps0 : PState := ⟨[⟨c6root, [], []⟩], []⟩

/-- The run state after entering state `s1` from the root. -/
def c6ps1 : PState := (processParts c6ps0 ["s1"]).1

def c7node : Node := .mk "_root" .group [] [] false [] none false []

def c7inner : Frame := ⟨c7node, [], [("k", none)]⟩

def c7outer : Frame := ⟨c7node, [], [("k", some "x")]⟩

def c7ps : PState := ⟨[c7inner, c7outer], []⟩

def c8state1 : Node := .mk "state1" .state [⟨"arg1", ["test1", "test2"]⟩] [] false [] none false []

def c8ps : PState := ⟨[], []⟩

def c9st : Node := .mk "interface" .state [] [] false [] (some "\x7bintf\x7d") false []

def c9kw : Bindings := [("intf", some "g0")]

def c9ps : PState := ⟨[], ["base"]⟩

def c10n : Node := .mk "cmd1" .command [] [] true [] none false []

def c10ps : PState := ⟨[], []⟩

/-! ### Helper lemmas -/

theorem mem_exactMatches {children : List Node} {cmd : String} {c : Node}
    (h : c ∈ exactMatches children cmd) :
    c ∈ children ∧ cmd ∈ c.names := by
  rw [exactMatches, List.mem_flatMap] at h
  obtain ⟨a, ha, hc⟩ := h
  rw [List.mem_map] at hc
  obtain ⟨p, hp, rfl⟩ := hc
  refine ⟨ha, ?_⟩
  rw [List.mem_filter] at hp
  obtain ⟨hp1, hp2⟩ := hp
  rw [Node.getCompletions, List.mem_map] at hp1
  obtain ⟨nm, hnm, rfl⟩ := hp1
  simp only [beq_iff_eq] at hp2
  subst hp2
  exact List.mem_of_mem_filter hnm

theorem mem_possibleMatches {children : List Node} {cmd : String} {c : Node}
    (h : c ∈ possibleMatches children cmd) :
    c ∈ children ∧ ∃ nm ∈ c.names, pyStartsWith nm cmd = true ∧ nm ≠ cmd := by
  rw [possibleMatches, List.mem_flatMap] at h
  obtain ⟨a, ha, hc⟩ := h
  rw [List.mem_map] at hc
  obtain ⟨p, hp, rfl⟩ := hc
  refine ⟨ha, ?_⟩
  rw [List.mem_filter] at hp
  obtain ⟨hp1, hp2⟩ := hp
  rw [Node.getCompletions, List.mem_map] at hp1
  obtain ⟨nm, hnm, rfl⟩ := hp1
  simp only [Bool.not_eq_true', beq_eq_false_iff_ne, ne_eq] at hp2
  rw [Node.completions, List.mem_filter] at hnm
  exact ⟨nm, hnm.1, hnm.2, hp2⟩

theorem resolveChild_mem {children : List Node} {cmd : String} {c : Node}
    (h : resolveChild children cmd = .ok c) : c ∈ children := by
  rw [resolveChild] at h
  split at h
  · rename_i heq
    have : c ∈ exactMatches children cmd := by
      simp only [Except.ok.injEq] at h
      subst h
      rw [heq]
      simp
    exact (mem_exactMatches this).1
  · split at h
    · rename_i heq
      have : c ∈ possibleMatches children cmd := by
        simp only [Except.ok.injEq] at h
        subst h
        rw [heq]
        simp
      exact (mem_possibleMatches this).1
    · exact absurd h (by simp)
    · exact absurd h (by simp)
  · exact absurd h (by simp)

theorem bindParams_rest_length (params : List Param) (lineParts : List String)
    (ps : PState) (kw : Bindings) :
    (bindParams params lineParts ps kw).2.2.length ≤ lineParts.length := by
  induction params generalizing lineParts ps kw with
  | nil => simp [bindParams]
  | cons p rest ih =>
    cases lineParts with
    | nil => simp [bindParams]
    | cons v vs =>
      rw [bindParams]
      exact Nat.le_trans (ih ..) (by simp)

theorem call_rest_length {n : Node} {cmd : String} {lineParts rest1 : List String}
    {ps ps1 : PState} {kw : Bindings}
    (h : n.call cmd lineParts ps = (ps1, .ok (rest1, kw))) :
    rest1.length ≤ lineParts.length := by
  rw [Node.call] at h
  split at h
  · simp at h
  · split at h
    · simp at h
    · rw [callFinish] at h
      split at h
      · simp at h
      · simp only [Prod.mk.injEq, Except.ok.injEq] at h
        obtain ⟨-, h2, -⟩ := h
        rw [← h2]
        exact bindParams_rest_length ..

theorem callChildF_fuel (f f' : Nat) (n : Node) (lineParts : List String)
    (ps : PState) (hf : lineParts.length ≤ f) (hf' : lineParts.length ≤ f') :
    callChildF f n lineParts ps = callChildF f' n lineParts ps := by
  induction f generalizing f' n lineParts ps with
  | zero =>
    cases lineParts with
    | nil => cases f' <;> rfl
    | cons c cs => simp at hf
  | succ f ih =>
    cases lineParts with
    | nil => cases f' <;> rfl
    | cons cmd rest =>
      cases f' with
      | zero => simp at hf'
      | succ f' =>
        simp only [List.length_cons, Nat.add_le_add_iff_right] at hf hf'
        simp only [callChildF]
        split
        · rfl
        · cases hres : resolveChild n.children cmd with
          | error e => rfl
          | ok child =>
            dsimp only
            cases hcall : child.call cmd rest ps with
            | mk ps1 r =>
              cases r with
              | error e => rfl
              | ok p =>
                obtain ⟨rest1, kw⟩ := p
                dsimp only
                have hlen : rest1.length ≤ rest.length := call_rest_length hcall
                split
                · rfl
                · split
                  · rw [ih f' child rest1 ps1 (Nat.le_trans hlen hf)
                      (Nat.le_trans hlen hf')]
                  · rfl

/-- The characteristic recursion equation of `Node.callChild`,
mirroring the Python body of `Group.call_child` line by line. -/
theorem callChild_eq (n : Node) (lineParts : List String) (ps : PState) :
    n.callChild lineParts ps =
      match lineParts with
      | [] => (ps, .ok none)
      | cmd :: rest =>
        if cmd = "" then (ps, .ok none)
        else
          match resolveChild n.children cmd with
          | .error e => (ps, .error e)
          | .ok child =>
            match child.call cmd rest ps with
            | (ps1, .error e) => (ps1, .error e)
            | (ps1, .ok (rest1, kw)) =>
              if child.kind = .state then (ps1, .ok (some (child, kw)))
              else if child.kind = .group then
                match child.callChild rest1 ps1 with
                | (ps2, .error e) => (ps2, .error e)
                | (ps2, .ok _) => (ps2, .ok none)
              else (ps1, .ok none) := by
  cases lineParts with
  | nil => rfl
  | cons cmd rest =>
    rw [Node.callChild]
    simp only [List.length_cons, callChildF]
    split
    · rfl
    · cases hres : resolveChild n.children cmd with
      | error e => rfl
      | ok child =>
        dsimp only
        cases hcall : child.call cmd rest ps with
        | mk ps1 r =>
          cases r with
          | error e => rfl
          | ok p =>
            obtain ⟨rest1, kw⟩ := p
            dsimp only
            have hlen : rest1.length ≤ rest.length := call_rest_length hcall
            split
            · rfl
            · split
              · rw [Node.callChild,
                  callChildF_fuel rest.length rest1.length child rest1 ps1 hlen
                    (Nat.le_refl _)]
              · rfl

theorem shapeEq_refl (a : PState) : shapeEq a a :=
  ⟨rfl, rfl, rfl, rfl⟩

theorem shapeEq_trans {a b c : PState} (h1 : shapeEq a b) (h2 : shapeEq b c) :
    shapeEq a c :=
  ⟨h1.1.trans h2.1, h1.2.1.trans h2.2.1, h1.2.2.1.trans h2.2.2.1,
    h1.2.2.2.trans h2.2.2.2⟩

theorem shapeEq_length {a b : PState} (h : shapeEq a b) :
    a.stack.length = b.stack.length := by
  have := congrArg List.length h.2.1
  simpa using this

theorem setContext_shapeEq (ps : PState) (k : String) (v : Option String) :
    shapeEq (ps.setContext k v) ps := by
  rw [PState.setContext]
  split
  · exact shapeEq_refl ps
  · rename_i top rest heq
    refine ⟨rfl, ?_, ?_, ?_⟩ <;> simp [heq]

theorem bindParams_shapeEq (params : List Param) (lineParts : List String)
    (ps : PState) (kw : Bindings) :
    shapeEq (bindParams params lineParts ps kw).1 ps := by
  induction params generalizing lineParts ps kw with
  | nil => exact shapeEq_refl ps
  | cons p rest ih =>
    cases lineParts with
    | nil => exact shapeEq_refl ps
    | cons v vs =>
      rw [bindParams]
      exact shapeEq_trans (ih ..) (setContext_shapeEq ..)

theorem call_shapeEq (n : Node) (cmd : String) (lineParts : List String)
    (ps : PState) : shapeEq (n.call cmd lineParts ps).1 ps := by
  rw [Node.call]
  split
  · exact shapeEq_refl ps
  · split
    · exact shapeEq_refl ps
    · rw [callFinish]
      split <;> exact bindParams_shapeEq ..

theorem callChildF_shapeEq (f : Nat) (n : Node) (lineParts : List String)
    (ps : PState) : shapeEq (callChildF f n lineParts ps).1 ps := by
  induction f generalizing n lineParts ps with
  | zero => cases lineParts <;> exact shapeEq_refl ps
  | succ f ih =>
    cases lineParts with
    | nil => exact shapeEq_refl ps
    | cons cmd rest =>
      rw [callChildF]
      split
      · exact shapeEq_refl ps
      · cases hres : resolveChild n.children cmd with
        | error e => exact shapeEq_refl ps
        | ok child =>
          dsimp only
          cases hcall : child.call cmd rest ps with
          | mk ps1 r =>
            have h1 : shapeEq ps1 ps := by
              have := call_shapeEq child cmd rest ps
              rw [hcall] at this
              exact this
            cases r with
            | error e => exact h1
            | ok p =>
              obtain ⟨rest1, kw⟩ := p
              dsimp only
              split
              · exact h1
              · split
                · cases hrec : callChildF f child rest1 ps1 with
                  | mk ps2 r2 =>
                    have h2 : shapeEq ps2 ps1 := by
                      have := ih child rest1 ps1
                      rw [hrec] at this
                      exact this
                    cases r2 with
                    | error e => exact shapeEq_trans h2 h1
                    | ok o => exact shapeEq_trans h2 h1
                · exact h1

theorem callChild_shapeEq (n : Node) (lineParts : List String) (ps : PState) :
    shapeEq (n.callChild lineParts ps).1 ps :=
  callChildF_shapeEq ..

theorem pyStartsWith_self (s : String) : pyStartsWith s s = true := by
  rw [pyStartsWith]
  exact List.isPrefixOf_iff_prefix.mpr (List.prefix_refl _)

theorem buildNames_foldl (nm : String) (ps : List String) :
    ∀ acc : List String,
      ps.foldl (fun acc p => acc ++ [p ++ " " ++ nm]) acc =
        acc ++ ps.map (fun p => p ++ " " ++ nm) := by
  induction ps with
  | nil => intro acc; simp
  | cons p rest ih =>
    intro acc
    rw [List.foldl_cons, ih]
    simp

theorem buildNames_eq (nm : String) (ps : List String) :
    buildNames nm ps = nm :: ps.map (fun p => p ++ " " ++ nm) := by
  rw [buildNames, buildNames_foldl]
  rfl

theorem lookupFrames_none {frames : List Frame} {k : String}
    (h : ∀ f ∈ frames, pyDictGet f.context k = none) :
    lookupFrames frames k = none := by
  induction frames with
  | nil => rfl
  | cons f rest ih =>
    simp only [lookupFrames, h f (List.mem_cons_self f rest)]
    exact ih fun g hg => h g (List.mem_cons_of_mem f hg)

theorem lookupFrames_append {pre : List Frame} {f : Frame} {post : List Frame}
    {k : String} {v : String}
    (hpre : ∀ g ∈ pre, pyDictGet g.context k = none)
    (hf : pyDictGet f.context k = some v) :
    lookupFrames (pre ++ f :: post) k = some v := by
  induction pre with
  | nil => simp only [List.nil_append, lookupFrames, hf]
  | cons g rest ih =>
    simp only [List.cons_append, lookupFrames, hpre g (List.mem_cons_self g rest)]
    exact ih fun g' hg' => hpre g' (List.mem_cons_of_mem g hg')

theorem getCompletions_ne_nil {n : Node} {cmd nm : String}
    (hnm : nm ∈ n.names) (hpre : pyStartsWith nm cmd = true) :
    n.getCompletions cmd ≠ [] := by
  have hmem : nm ∈ n.completions cmd := List.mem_filter.mpr ⟨hnm, hpre⟩
  intro hnil
  rw [Node.getCompletions, List.map_eq_nil_iff] at hnil
  rw [hnil] at hmem
  simp at hmem

/-! ### Claim-by-claim theorems -/

/-- C5 (corrected): for Command and Group nodes, `names` has length
`1 + number of optional prefixes`, its first element is the node's
name, and each optional-prefixed form is exactly the prefix, a single
space, and the name; a State node's `names`, however, is just
`[name]` regardless of its optional prefixes (the `State.names`
override). -/
theorem c5_amended (n : Node) :
    (n.kind ≠ .state →
      n.names.length = 1 + n.optionalPrefixes.length ∧
      n.names.head? = some n.name ∧
      ∀ i p, n.optionalPrefixes[i]? = some p →
        n.names[i + 1]? = some (p ++ " " ++ n.name)) ∧
    (n.kind = .state → n.names = [n.name]) := by
  constructor
  · intro hk
    have hnames : n.names =
        n.name :: n.optionalPrefixes.map (fun p => p ++ " " ++ n.name) := by
      cases hkind : n.kind with
      | state => exact absurd hkind hk
      | command => simp [Node.names, hkind, buildNames_eq]
      | group => simp [Node.names, hkind, buildNames_eq]
    rw [hnames]
    refine ⟨?_, rfl, ?_⟩
    · simp [Nat.add_comm]
    · intro i p hip
      simp [hip]
  · intro hk
    simp [Node.names, hk]

/-- C5 counterexample: a State node with one optional prefix has a
`names` list of length 1, not `1 + 1`. -/
theorem c5_counterexample :
    c5stateShut.kind = .state ∧ c5stateShut.optionalPrefixes = ["no"] ∧
    c5stateShut.names.length ≠ 1 + c5stateShut.optionalPrefixes.length :=
  ⟨rfl, rfl, by decide⟩

theorem c5_witness :
    c5shut.names.length = 1 + c5shut.optionalPrefixes.length ∧
    c5shut.names.head? = some c5shut.name ∧
    c5shut.names = ["shutdown", "no shutdown"] := by
  have h := (c5_amended c5shut).1 (by decide)
  exact ⟨h.1, h.2.1, by decide⟩

/-- C7 (confirmed): `get_context` scans the frames innermost-first (the
head of `PState.stack` is the top) and returns the value of the first
frame whose bindings hold a non-null value for the key; when no frame
does — including when inner frames bind the key to null — it returns
the caller-supplied default. -/
theorem c7_get_context (ps : PState) (k : String) (d : Option String) :
    ((∀ f ∈ ps.stack, pyDictGet f.context k = none) →
      ps.getContext k d = d) ∧
    (∀ pre f post v, ps.stack = pre ++ f :: post →
      (∀ g ∈ pre, pyDictGet g.context k = none) →
      pyDictGet f.context k = some v →
      ps.getContext k d = some v) := by
  constructor
  · intro h
    simp only [PState.getContext, lookupFrames_none h]
  · intro pre f post v hstack hpre hf
    simp only [PState.getContext, hstack, lookupFrames_append hpre hf]

theorem c7_witness : c7ps.getContext "k" none = some "x" :=
  (c7_get_context c7ps "k" none).2 [c7inner] c7outer [] "x" rfl
    (by decide) (by decide)

/-- C8 (confirmed): `Base.call` raises `NotEnoughArgs` exactly when the
declared parameters outnumber the remaining tokens, and in that case it
returns with the run state untouched — the check precedes every
binding, context write, and callback invocation. -/
theorem c8_not_enough_args (n : Node) (cmd : String) (lineParts : List String)
    (ps : PState) :
    ((n.call cmd lineParts ps).2 = .error (.notEnoughArgs cmd) ↔
      lineParts.length < n.params.length) ∧
    (lineParts.length < n.params.length →
      n.call cmd lineParts ps = (ps, .error (.notEnoughArgs cmd))) := by
  constructor
  · constructor
    · intro herr
      rw [Node.call] at herr
      split at herr
      · assumption
      · split at herr
        · simp at herr
        · rw [callFinish] at herr
          split at herr
          · simp at herr
          · simp at herr
    · intro hlt
      rw [Node.call]
      split
      · rfl
      · rename_i h
        exact absurd hlt h
  · intro hlt
    rw [Node.call]
    split
    · rfl
    · rename_i h
      exact absurd hlt h

theorem c8_witness :
    c8state1.call "state1" [] c8ps = (c8ps, .error (.notEnoughArgs "state1")) :=
  (c8_not_enough_args c8state1 "state1" [] c8ps).2 (by decide)

/-- C9 (confirmed): pushing a State with a non-null prompt template
renders the template with the entering call's kwargs and appends
exactly one breadcrumb; the matching pop removes exactly that
breadcrumb and frame, restoring the pre-push run state exactly; a State
with a null template changes the breadcrumb list on neither push nor
pop. -/
theorem c9_push_pop (ps : PState) (st : Node) (kw : Bindings) :
    (ps.pushState st kw).popState = (ps, some st) ∧
    (∀ tpl, st.promptTemplate = some tpl →
      (ps.pushState st kw).crumbs = pyFormat tpl kw :: ps.crumbs) ∧
    (st.promptTemplate = none → (ps.pushState st kw).crumbs = ps.crumbs) := by
  refine ⟨?_, ?_, ?_⟩
  · cases hp : nodeGetPrompt st kw with
    | some crumb => simp [PState.pushState, PState.popState, hp]
    | none => simp [PState.pushState, PState.popState, hp]
  · intro tpl htpl
    simp [PState.pushState, nodeGetPrompt, htpl]
  · intro htpl
    simp [PState.pushState, nodeGetPrompt, htpl]

theorem c9_witness :
    (c9ps.pushState c9st c9kw).popState = (c9ps, some c9st) ∧
    (c9ps.pushState c9st c9kw).crumbs = "g0" :: c9ps.crumbs := by
  have h := c9_push_pop c9ps c9st c9kw
  refine ⟨h.1, (h.2.1 "\x7bintf\x7d" rfl).trans ?_⟩
  decide

/-- C10 (confirmed): whenever dispatch has selected a child for token
`cmd`, at least one of the child's names starts with `cmd`, so the
child's completion list for `cmd` is non-empty and the
`get_completions(cmd)[0][0]` lookup guarding `called_name` inside
`Base.call` can never fail with an out-of-range access. -/
theorem c10_pass_name_safe (children : List Node) (cmd : String) (child : Node)
    (h : resolveChild children cmd = .ok child) :
    (∃ nm ∈ child.names, pyStartsWith nm cmd = true) ∧
    child.getCompletions cmd ≠ [] ∧
    ∀ lineParts ps, (child.call cmd lineParts ps).2 ≠ .error .indexError := by
  have hex : ∃ nm ∈ child.names, pyStartsWith nm cmd = true := by
    rw [resolveChild] at h
    split at h
    · rename_i heq
      have hc : child ∈ exactMatches children cmd := by
        simp only [Except.ok.injEq] at h
        subst h
        rw [heq]
        simp
      obtain ⟨-, hcmd⟩ := mem_exactMatches hc
      exact ⟨cmd, hcmd, pyStartsWith_self cmd⟩
    · split at h
      · rename_i heq
        have hc : child ∈ possibleMatches children cmd := by
          simp only [Except.ok.injEq] at h
          subst h
          rw [heq]
          simp
        obtain ⟨-, nm, hnm, hsw, -⟩ := mem_possibleMatches hc
        exact ⟨nm, hnm, hsw⟩
      · exact absurd h (by simp)
      · exact absurd h (by simp)
    · exact absurd h (by simp)
  obtain ⟨nm, hnm, hsw⟩ := hex
  have hne := getCompletions_ne_nil hnm hsw
  refine ⟨⟨nm, hnm, hsw⟩, hne, ?_⟩
  intro lineParts ps
  rw [Node.call]
  split
  · simp
  · split
    · rename_i hcond
      rw [Bool.and_eq_true, List.isEmpty_iff] at hcond
      exact absurd hcond.2 hne
    · rw [callFinish]
      split
      · simp
      · simp

theorem c10_witness :
    (∃ nm ∈ c10n.names, pyStartsWith nm "cm" = true) ∧
    (c10n.call "cm" [] c10ps).2 ≠ .error .indexError := by
  have h := c10_pass_name_safe [c10n] "cm" c10n rfl
  exact ⟨h.1, h.2.2 [] c10ps⟩

theorem exact_pairs_length (c : Node) (cmd : String) :
    ((c.getCompletions cmd).filter (fun p => p.2)).length =
      numExactNames c cmd := by
  rw [Node.getCompletions, List.filter_map, List.length_map, Node.completions,
    List.filter_filter, numExactNames]
  congr 1
  apply List.filter_congr
  intro nm _
  show ((nm, nm == cmd).2 && pyStartsWith nm cmd) = (nm == cmd)
  cases heq : nm == cmd with
  | false => simp
  | true =>
    have : nm = cmd := by simpa using heq
    subst this
    simp [pyStartsWith_self]

theorem prefix_pairs_length (c : Node) (cmd : String) :
    ((c.getCompletions cmd).filter (fun p => !p.2)).length =
      numPrefixNames c cmd := by
  rw [Node.getCompletions, List.filter_map, List.length_map, Node.completions,
    List.filter_filter, numPrefixNames]
  congr 1
  apply List.filter_congr
  intro nm _
  show (!(nm, nm == cmd).2 && pyStartsWith nm cmd) =
    (pyStartsWith nm cmd && !(nm == cmd))
  cases nm == cmd <;> cases pyStartsWith nm cmd <;> rfl

theorem exactMatches_length (children : List Node) (cmd : String) :
    (exactMatches children cmd).length = exactPairCount children cmd := by
  rw [exactMatches, List.length_flatMap, exactPairCount]
  congr 1
  apply List.map_congr_left
  intro c _
  simp [exact_pairs_length]

theorem possibleMatches_length (children : List Node) (cmd : String) :
    (possibleMatches children cmd).length = prefixPairCount children cmd := by
  rw [possibleMatches, List.length_flatMap, prefixPairCount]
  congr 1
  apply List.map_congr_left
  intro c _
  simp [prefix_pairs_length]

/-- C2 (corrected): resolution tallies matches per `(name, exactness)`
PAIR, not per child node: `exact_matches` and `possible` receive one
entry for every matching name of every child.  The exact tier still
wins (more than one exact pair is ambiguous, exactly one selects its
owner; otherwise more than one strict-prefix pair is ambiguous, exactly
one selects its owner, and none is command-not-found) — but a SINGLE
child several of whose names strictly prefix-match `cmd` is reported
ambiguous, not selected. -/
theorem c2_amended (children : List Node) (cmd : String) :
    (1 < exactPairCount children cmd →
      resolveChild children cmd = .error (.ambiguous cmd)) ∧
    (exactPairCount children cmd = 1 →
      ∃ c ∈ children, cmd ∈ c.names ∧ resolveChild children cmd = .ok c) ∧
    (exactPairCount children cmd = 0 → 1 < prefixPairCount children cmd →
      resolveChild children cmd = .error (.ambiguous cmd)) ∧
    (exactPairCount children cmd = 0 → prefixPairCount children cmd = 1 →
      ∃ c ∈ children, (∃ nm ∈ c.names, pyStartsWith nm cmd = true ∧ nm ≠ cmd) ∧
        resolveChild children cmd = .ok c) ∧
    (exactPairCount children cmd = 0 → prefixPairCount children cmd = 0 →
      resolveChild children cmd = .error (.notFound cmd)) := by
  have hE := exactMatches_length children cmd
  have hP := possibleMatches_length children cmd
  refine ⟨?_, ?_, ?_, ?_, ?_⟩
  · intro h1
    rw [← hE] at h1
    rcases hx : exactMatches children cmd with _ | ⟨a, _ | ⟨b, t⟩⟩
    · rw [hx] at h1; simp at h1
    · rw [hx] at h1; simp at h1
    · rw [resolveChild, hx]
  · intro h1
    obtain ⟨c, hc⟩ := List.length_eq_one.mp (hE.trans h1)
    have hcm : c ∈ exactMatches children cmd := by rw [hc]; simp
    obtain ⟨hcc, hcn⟩ := mem_exactMatches hcm
    exact ⟨c, hcc, hcn, by rw [resolveChild, hc]⟩
  · intro h0 h1
    have hx0 : exactMatches children cmd = [] :=
      List.length_eq_zero.mp (hE.trans h0)
    rw [← hP] at h1
    rcases hx : possibleMatches children cmd with _ | ⟨a, _ | ⟨b, t⟩⟩
    · rw [hx] at h1; simp at h1
    · rw [hx] at h1; simp at h1
    · rw [resolveChild, hx0, hx]
  · intro h0 h1
    have hx0 : exactMatches children cmd = [] :=
      List.length_eq_zero.mp (hE.trans h0)
    obtain ⟨c, hc⟩ := List.length_eq_one.mp (hP.trans h1)
    have hcm : c ∈ possibleMatches children cmd := by rw [hc]; simp
    obtain ⟨hcc, nm, hnm, hsw, hne⟩ := mem_possibleMatches hcm
    exact ⟨c, hcc, ⟨nm, hnm, hsw, hne⟩, by rw [resolveChild, hx0, hc]⟩
  · intro h0 h1
    have hx0 : exactMatches children cmd = [] :=
      List.length_eq_zero.mp (hE.trans h0)
    have hx1 : possibleMatches children cmd = [] :=
      List.length_eq_zero.mp (hP.trans h1)
    rw [resolveChild, hx0, hx1]

/-- C2 counterexample: a single child named `"nose"` with optional
prefix `"no"` has the two names `"nose"` and `"no nose"`, both strict
prefix matches for the token `"no"` — and resolution reports
AmbiguousCommand instead of selecting the only matching child. -/
theorem c2_counterexample :
    c2nose.names = ["nose", "no nose"] ∧
    (∀ nm ∈ c2nose.names, pyStartsWith nm "no" = true ∧ nm ≠ "no") ∧
    resolveChild [c2nose] "no" = .error (.ambiguous "no") :=
  ⟨by decide, by decide, rfl⟩

theorem c2_witness :
    ∃ c ∈ [c2nose], "nose" ∈ c.names ∧
      resolveChild [c2nose] "nose" = .ok c :=
  (c2_amended [c2nose] "nose").2.1 (by decide)

theorem callChild_some_inv {n : Node} {lineParts : List String}
    {ps ps' : PState} {st : Node} {kw : Bindings}
    (h : n.callChild lineParts ps = (ps', .ok (some (st, kw)))) :
    st.kind = .state ∧
    ∃ cmd rest, lineParts = cmd :: rest ∧ cmd ≠ "" ∧
      resolveChild n.children cmd = .ok st := by
  rw [callChild_eq] at h
  cases lineParts with
  | nil => simp at h
  | cons cmd rest =>
    dsimp only at h
    split at h
    · simp at h
    · rename_i hcmd
      cases hres : resolveChild n.children cmd with
      | error e => rw [hres] at h; simp at h
      | ok child =>
        rw [hres] at h
        dsimp only at h
        cases hcall : child.call cmd rest ps with
        | mk ps1 r =>
          rw [hcall] at h
          cases r with
          | error e => simp at h
          | ok p =>
            obtain ⟨rest1, kw1⟩ := p
            dsimp only at h
            split at h
            · rename_i hkind
              simp only [Prod.mk.injEq, Except.ok.injEq, Option.some.injEq]
                at h
              obtain ⟨-, h2, -⟩ := h
              subst h2
              exact ⟨hkind, cmd, rest, rfl, hcmd, hres⟩
            · split at h
              · cases hrec : child.callChild rest1 ps1 with
                | mk ps2 r2 =>
                  rw [hrec] at h
                  cases r2 with
                  | error e => simp at h
                  | ok o => simp at h
              · simp at h

/-- C1 (corrected): `call_child` returns a State to push ONLY when the
child selected for the first token is itself a State; when the selected
child is a Group, the recursion on the remaining tokens runs (its calls
and context writes happen) but its result — including any State it
produced — is DISCARDED, and `call_child` returns none.  So none is
returned whenever the directly selected child is not a State, not only
when resolution bottoms out at a leaf Command, and a State reached
transitively through a Group on the same line is never pushed. -/
theorem c1_amended (n : Node) (lineParts : List String) (ps : PState) :
    (∀ ps' st kw, n.callChild lineParts ps = (ps', .ok (some (st, kw))) →
      st.kind = .state ∧
      ∃ cmd rest, lineParts = cmd :: rest ∧ cmd ≠ "" ∧
        resolveChild n.children cmd = .ok st) ∧
    (∀ cmd rest child, lineParts = cmd :: rest → cmd ≠ "" →
      resolveChild n.children cmd = .ok child → child.kind ≠ .state →
      ∀ ps' st kw, n.callChild lineParts ps ≠ (ps', .ok (some (st, kw)))) := by
  constructor
  · intro ps' st kw h
    exact callChild_some_inv h
  · intro cmd rest child hlp hcmd hres hkind ps' st kw h
    obtain ⟨hst, cmd', rest', hlp', -, hres'⟩ := callChild_some_inv h
    rw [hlp] at hlp'
    obtain ⟨rfl, rfl⟩ : cmd' = cmd ∧ rest' = rest := by
      injection hlp' with a b
      exact ⟨a.symm, b.symm⟩
    rw [hres] at hres'
    injection hres' with hc
    rw [hc] at hkind
    exact hkind hst

/-- C1 counterexample: dispatching `["g", "s"]` from the root, where
`g` is a Group whose child `s` is a State: the recursive call on `g`
produces the State `s`, but the outer `call_child` returns none and the
run loop pushes nothing. -/
theorem c1_counterexample :
    c1s.kind = .state ∧
    c1g.callChild ["s"] c1ps = (c1ps, .ok (some (c1s, []))) ∧
    c1root.callChild ["g", "s"] c1ps = (c1ps, .ok none) ∧
    (processParts c1ps ["g", "s"]).1.stack.length = c1ps.stack.length :=
  ⟨rfl, rfl, rfl, rfl⟩

theorem c1_witness :
    c1s.kind = .state ∧
    ∃ cmd rest, (["s"] : List String) = cmd :: rest ∧ cmd ≠ "" ∧
      resolveChild c1rootDirect.children cmd = .ok c1s :=
  (c1_amended c1rootDirect ["s"] c1ps).1 c1ps c1s [] rfl

/-- C3 (corrected): a line whose dispatch fails with AmbiguousCommand,
CommandNotFound, or NotEnoughArgs leaves the STRUCTURE of the run state
intact — no frame is pushed or popped, every frame keeps its state node
and push-time kwargs, the breadcrumbs are untouched, and every frame
below the top keeps its context verbatim — but context bindings written
into the top frame by ancestor nodes that matched and consumed
parameters before the failure point DO persist (Python raises after
`set_context` has already run). -/
theorem c3_amended (ps : PState) (lineParts : List String) (ps' : PState)
    (e : PErr) (h : processParts ps lineParts = (ps', .error e)) :
    ps'.crumbs = ps.crumbs ∧
    ps'.stack.length = ps.stack.length ∧
    ps'.stack.map Frame.state = ps.stack.map Frame.state ∧
    ps'.stack.map Frame.pushKwargs = ps.stack.map Frame.pushKwargs ∧
    ps'.stack.tail = ps.stack.tail := by
  rw [processParts] at h
  split at h
  · simp at h
  · split at h
    · simp at h
    · rename_i top rest0 heq0
      cases hcc : top.state.callChild lineParts ps with
      | mk ps1 r =>
        rw [hcc] at h
        have hs := callChild_shapeEq top.state lineParts ps
        rw [hcc] at hs
        cases r with
        | ok o =>
          cases o with
          | none => simp at h
          | some p => obtain ⟨st, kw⟩ := p; simp at h
        | error err =>
          cases err with
          | exitState =>
            dsimp only at h
            split at h <;> simp at h
          | ambiguous cmd =>
            simp only [Prod.mk.injEq] at h
            obtain ⟨h1, -⟩ := h
            subst h1
            exact ⟨hs.1, shapeEq_length hs, hs.2.1, hs.2.2.1, hs.2.2.2⟩
          | notFound cmd =>
            simp only [Prod.mk.injEq] at h
            obtain ⟨h1, -⟩ := h
            subst h1
            exact ⟨hs.1, shapeEq_length hs, hs.2.1, hs.2.2.1, hs.2.2.2⟩
          | notEnoughArgs cmd =>
            simp only [Prod.mk.injEq] at h
            obtain ⟨h1, -⟩ := h
            subst h1
            exact ⟨hs.1, shapeEq_length hs, hs.2.1, hs.2.2.1, hs.2.2.2⟩
          | indexError =>
            simp only [Prod.mk.injEq] at h
            obtain ⟨h1, -⟩ := h
            subst h1
            exact ⟨hs.1, shapeEq_length hs, hs.2.1, hs.2.2.1, hs.2.2.2⟩

/-- C3 counterexample: the line `"g v x"` (group `g` binds parameter
`arg` to `"v"`, then the nested token `"x"` is not found) fails with
CommandNotFound, yet the top frame's context has gained the binding
`arg = "v"` — the context store is NOT left as it was. -/
theorem c3_counterexample :
    (processParts c3ps ["g", "v", "x"]).2 = .error (.notFound "x") ∧
    c3ps.stack.map Frame.context = [[]] ∧
    (processParts c3ps ["g", "v", "x"]).1.stack.map Frame.context =
      [[("arg", some "v")]] :=
  ⟨by decide, rfl, by decide⟩

theorem c3_witness :
    (processParts c3ps ["g", "v", "x"]).1.crumbs = c3ps.crumbs ∧
    (processParts c3ps ["g", "v", "x"]).1.stack.length =
      c3ps.stack.length := by
  have h2 : (processParts c3ps ["g", "v", "x"]).2 = .error (.notFound "x") :=
    by decide
  have h := c3_amended c3ps ["g", "v", "x"]
    (processParts c3ps ["g", "v", "x"]).1 (.notFound "x") (by rw [← h2])
  exact ⟨h.1, h.2.1⟩

theorem stepChild_foldl (word : String) (kids : List Node) :
    ∀ acc : Node × Bool,
      (kids.foldl (stepChild word) acc).1 =
        (kids.filter (fun c => stepMatches c word)).getLastD acc.1 ∧
      (kids.foldl (stepChild word) acc).2 =
        (acc.2 &&
          !((kids.filter (fun c => stepMatches c word)).any
            Node.hasParams)) := by
  induction kids with
  | nil => intro acc; simp
  | cons k rest ih =>
    intro acc
    rw [List.foldl_cons]
    by_cases hm : stepMatches k word
    · have hstep : stepChild word acc k =
          (k, if k.hasParams then false else acc.2) := by
        simp [stepChild, hm]
      rw [hstep,
        @List.filter_cons_of_pos _ (fun c => stepMatches c word) k rest hm,
        List.getLastD_cons, List.any_cons]
      have hrec := ih (k, if k.hasParams then false else acc.2)
      refine ⟨hrec.1, hrec.2.trans ?_⟩
      cases hk : k.hasParams <;> simp [hk]
    · have hstep : stepChild word acc k = acc := by
        simp [stepChild, hm]
      rw [hstep,
        @List.filter_cons_of_neg _ (fun c => stepMatches c word) k rest hm]
      exact ih acc

/-- C4 (corrected): the completion walk does NOT replay dispatch's
exact-tier-then-prefix-tier uniqueness check.  For each non-empty word
it scans the current position's children in order and moves to EVERY
child whose completion list for that word contains an exact pair or has
exactly one entry — so the LAST such child wins, with no
cross-children ambiguity detection — and a word matching no child under
this rule leaves the position unchanged for that word only (later words
continue from the same position).  The walk is a total function (it
never raises), runs only when the buffer holds more than one word, and
can land on a different node than dispatch selects for the same
token. -/
theorem c4_amended (word : String) (hw : word ≠ "") :
    (∀ acc : Node × Bool,
      (walkWord acc word).1 =
        (acc.1.children.filter (fun c => stepMatches c word)).getLastD
          acc.1 ∧
      (walkWord acc word).2 =
        (acc.2 &&
          !((acc.1.children.filter (fun c => stepMatches c word)).any
            Node.hasParams))) ∧
    (∀ (n : Node) (lineParts : List String), 1 < lineParts.length →
      n.childWalk lineParts = lineParts.foldl walkWord (n, true)) ∧
    (∀ (n : Node) (lineParts : List String), lineParts.length ≤ 1 →
      n.childWalk lineParts = (n, true)) := by
  refine ⟨?_, ?_, ?_⟩
  · intro acc
    rw [walkWord, if_neg hw]
    exact stepChild_foldl word acc.1.children acc
  · intro n lineParts hlen
    rw [Node.childWalk, if_pos hlen]
  · intro n lineParts hlen
    rw [Node.childWalk, if_neg (by omega)]

/-- C4 counterexample: with sibling states named `"state"` and
`"state1"` and the buffer `"state "` (words `["state", ""]`), dispatch
selects the exact match `"state"`, but the completion walk scans on and
lands on `"state1"` — the walk does not select the same node per token
as dispatch. -/
theorem c4_counterexample :
    resolveChild c4root.children "state" = .ok c4state ∧
    c4state.name = "state" ∧ c4state1.name = "state1" ∧
    (c4root.childWalk ["state", ""]).1.name = "state1" ∧
    ("state" : String) ≠ "state1" :=
  ⟨rfl, rfl, rfl, by decide, by decide⟩

theorem c4_witness :
    (walkWord (c4root, true) "state").1.name = "state1" := by
  have h := ((c4_amended "state" (by decide)).1 (c4root, true)).1
  rw [h]
  decide

theorem shapeEq_getLast_state {a b : PState} (h : shapeEq a b) :
    a.stack.getLast?.map Frame.state = b.stack.getLast?.map Frame.state := by
  have hm := congrArg List.getLast? h.2.1
  rwa [List.getLast?_map, List.getLast?_map] at hm

theorem pushState_stack (ps : PState) (st : Node) (kw : Bindings) :
    (ps.pushState st kw).stack = ⟨st, kw, []⟩ :: ps.stack := by
  rw [PState.pushState]
  cases nodeGetPrompt st kw <;> rfl

theorem popState_stack {ps : PState} {top : Frame} {rest : List Frame}
    (h : ps.stack = top :: rest) : ((ps.popState).1).stack = rest := by
  rw [PState.popState, h]
  dsimp only
  cases nodeGetPrompt top.state top.pushKwargs <;> rfl

theorem getLast?_cons_of_ne_nil {α : Type _} (a : α) {l : List α}
    (h : l ≠ []) : (a :: l).getLast? = l.getLast? := by
  obtain ⟨b, L, rfl⟩ := List.exists_cons_of_ne_nil h
  exact List.getLast?_cons_cons

/-- C6 (confirmed): one `_run` iteration keeps the stack non-empty and
never removes the root (bottom) frame; when dispatch raises the
exit-state signal with more than the root frame on the stack the loop
pops exactly one frame and reports an ordinary (continue) outcome, and
when only the root frame remains it pops nothing and the signal
escapes as session termination. -/
theorem c6_run_loop (ps : PState) (top : Frame) (rest : List Frame)
    (lineParts : List String) (hstack : ps.stack = top :: rest) :
    ((processParts ps lineParts).1.stack ≠ [] ∧
     (processParts ps lineParts).1.stack.getLast?.map Frame.state =
       ps.stack.getLast?.map Frame.state) ∧
    ((top.state.callChild lineParts ps).2 = .error .exitState →
      (1 < (top.state.callChild lineParts ps).1.stack.length →
        processParts ps lineParts =
          (((top.state.callChild lineParts ps).1.popState).1, .ok) ∧
        ((top.state.callChild lineParts ps).1.popState).1.stack.length + 1 =
          (top.state.callChild lineParts ps).1.stack.length) ∧
      ((top.state.callChild lineParts ps).1.stack.length = 1 →
        processParts ps lineParts =
          ((top.state.callChild lineParts ps).1, .sessionExit))) := by
  by_cases hemp : lineParts.isEmpty
  · have hnil : lineParts = [] := List.isEmpty_iff.mp hemp
    subst hnil
    have hp : processParts ps [] = (ps, .ok) := rfl
    rw [hp]
    refine ⟨⟨by rw [hstack]; simp, rfl⟩, ?_⟩
    intro hx
    rw [callChild_eq] at hx
    simp at hx
  · rw [processParts, if_neg hemp, hstack]
    dsimp only
    cases hcc : top.state.callChild lineParts ps with
    | mk ps1 r =>
      have hs : shapeEq ps1 ps := by
        have := callChild_shapeEq top.state lineParts ps
        rwa [hcc] at this
      have hlen1 : ps1.stack.length = (top :: rest).length := by
        rw [← hstack]
        exact shapeEq_length hs
      have hgl : ps1.stack.getLast?.map Frame.state =
          (top :: rest).getLast?.map Frame.state := by
        rw [← hstack]
        exact shapeEq_getLast_state hs
      have hne1 : ps1.stack ≠ [] := by
        apply List.ne_nil_of_length_pos
        rw [hlen1]
        simp
      cases r with
      | ok o =>
        cases o with
        | none =>
          dsimp only
          exact ⟨⟨hne1, hgl⟩, fun hx => by simp at hx⟩
        | some p =>
          obtain ⟨st, kw⟩ := p
          dsimp only
          refine ⟨⟨?_, ?_⟩, fun hx => by simp at hx⟩
          · rw [pushState_stack]
            simp
          · rw [pushState_stack, getLast?_cons_of_ne_nil _ hne1]
            exact hgl
      | error err =>
        cases err with
        | exitState =>
          dsimp only
          by_cases hl : ps1.stack.length > 1
          · rw [if_pos hl]
            obtain ⟨a, l2, hps1⟩ := List.exists_cons_of_ne_nil hne1
            have hl2ne : l2 ≠ [] := by
              apply List.ne_nil_of_length_pos
              rw [hps1] at hl
              simp at hl
              omega
            have hpop : ((ps1.popState).1).stack = l2 := popState_stack hps1
            refine ⟨⟨?_, ?_⟩, ?_⟩
            · rw [hpop]
              exact hl2ne
            · rw [hpop, ← hgl, hps1, getLast?_cons_of_ne_nil _ hl2ne]
            · intro _
              refine ⟨fun _ => ⟨rfl, ?_⟩, fun h1 => absurd h1 (by omega)⟩
              rw [hpop, hps1]
              simp
          · rw [if_neg hl]
            refine ⟨⟨hne1, hgl⟩, ?_⟩
            intro _
            exact ⟨fun h2 => absurd h2 hl, fun _ => rfl⟩
        | ambiguous cmd =>
          dsimp only
          exact ⟨⟨hne1, hgl⟩, fun hx => by simp at hx⟩
        | notFound cmd =>
          dsimp only
          exact ⟨⟨hne1, hgl⟩, fun hx => by simp at hx⟩
        | notEnoughArgs cmd =>
          dsimp only
          exact ⟨⟨hne1, hgl⟩, fun hx => by simp at hx⟩
        | indexError =>
          dsimp only
          exact ⟨⟨hne1, hgl⟩, fun hx => by simp at hx⟩

theorem c6_witness :
    (processParts c6ps1 ["exit"]).1.stack.length = 1 ∧
    (processParts c6ps1 ["exit"]).2 = .ok ∧
    c6ps1.stack.length = 2 ∧
    (processParts c6ps1 ["exit"]).1.stack ≠ [] := by
  have hstack : c6ps1.stack =
      (⟨c6st, [], []⟩ : Frame) :: [⟨c6root, [], []⟩] := rfl
  have h := c6_run_loop c6ps1 ⟨c6st, [], []⟩ [⟨c6root, [], []⟩] ["exit"]
    hstack
  have hx : ((⟨c6st, [], []⟩ : Frame).state.callChild ["exit"] c6ps1).2 =
      .error .exitState := rfl
  have hpop := (h.2 hx).1 (by decide)
  refine ⟨?_, ?_, by decide, h.1.1⟩
  · rw [hpop.1]
    decide
  · rw [hpop.1]

end Promptr
